/-
Verification of the lsm key-value store (server side).

Shallow embedding of the server sources:
  - src/server/src/trie.rs   : the in-memory 256-ary trie (Trie)
  - src/server/src/event.rs  : the event dispatcher, WAL encoding and the
                               recovery parser (EventHandler::load,
                               EventHandler::start_event_loop)
  - src/server/src/main.rs   : the wire-protocol framer and the response writer

Bytes are modelled as Nat (values of Rust u8 are < 256; where a fact depends
on byte-boundedness the theorem carries that hypothesis explicitly).
Machine-integer truncations (`as u16`, `as u8`) are modelled by `% 65536`
and `% 256`.  File writes are modelled by the written byte sequences.
-/
import Mathlib

set_option maxHeartbeats 1000000
set_option maxRecDepth 8192

/-! ## Constants (src/server/src/event.rs, lines 14-27) -/

def OP_GET : Nat := 0xc1
def OP_SET : Nat := 0xc2
def RES_GET : Nat := 0x81
def RES_SET : Nat := 0x82
def LEN_MASK : Nat := 0x7fff
def NONE_VALUE_LEN : Nat := 0xffff
def FILE_BATCH : Nat := 2

/-- NODE_SIZE from src/server/src/trie.rs line 8: `1 << 8`. -/
def NODE_SIZE : Nat := 1 <<< 8

/-! ## Trie Store (src/server/src/trie.rs)

The Rust node is `{ nodes: Box<[Option<Trie>; 256]>, value: Option<Vec<u8>> }`.
The fixed 256-slot array is modelled as a `List (Option Trie)`; the invariant
that it has exactly 256 slots (automatic in Rust from the array type) is the
predicate `Trie.wf` below, carried as a hypothesis where a theorem needs it. -/

inductive Trie where
  | node (value : Option (List Nat)) (nodes : List (Option Trie))

/-- `Trie::new` (trie.rs lines 31-41): all 256 child slots `None`, no value. -/
def Trie.new : Trie := Trie.node none (List.replicate 256 none)

/-- `Trie::do_set` (trie.rs lines 47-65).  The Rust code indexes the key with
`index`; here the key is consumed from the front, which is the same traversal
(the `index > key.len()` branch of the source is unreachable from `set`).
`nodes[i]` becomes `nodes.getD i none`; storing into slot `i` becomes
`nodes.set i`. -/
def Trie.do_set : Trie → List Nat → Option (List Nat) → Trie
  | Trie.node _ nodes, [], value => Trie.node value nodes
  | Trie.node val nodes, b :: rest, value =>
    match nodes.getD b none with
    | some nd => Trie.node val (nodes.set b (some (nd.do_set rest value)))
    | none => Trie.node val (nodes.set b (some (Trie.new.do_set rest value)))

/-- `Trie::set` (trie.rs lines 43-45). -/
def Trie.set (t : Trie) (key : List Nat) (value : Option (List Nat)) : Trie :=
  t.do_set key value

/-- `Trie::do_get` (trie.rs lines 71-85). -/
def Trie.do_get : Trie → List Nat → Option (List Nat)
  | Trie.node value _, [] => value
  | Trie.node _ nodes, b :: rest =>
    match nodes.getD b none with
    | some nd => nd.do_get rest
    | none => none

/-- `Trie::get` (trie.rs lines 67-69). -/
def Trie.get (t : Trie) (key : List Nat) : Option (List Nat) :=
  t.do_get key

mutual

/-- Well-formedness of the list model: every node's child list has exactly
256 slots, as the Rust array type `[Option<Trie>; 256]` guarantees. -/
def Trie.wf : Trie → Bool
  | Trie.node _ nodes => nodes.length == 256 && Trie.wfKids nodes

def Trie.wfKids : List (Option Trie) → Bool
  | [] => true
  | none :: rest => Trie.wfKids rest
  | some t :: rest => t.wf && Trie.wfKids rest

end

/-! ### Basic trie lemmas -/

theorem Trie.getD_replicate (n b : Nat) :
    (List.replicate n (none : Option Trie)).getD b none = none := by
  rw [List.getD_eq_getElem?_getD, List.getElem?_replicate]
  by_cases h : b < n <;> simp [h]

theorem Trie.get_new (k : List Nat) : Trie.new.get k = none := by
  cases k with
  | nil => rfl
  | cons b rest =>
    show Trie.do_get Trie.new (b :: rest) = none
    rw [Trie.new, Trie.do_get, Trie.getD_replicate]

theorem Trie.wfKids_mem {nodes : List (Option Trie)} {t : Trie}
    (hwf : Trie.wfKids nodes = true) (hm : some t ∈ nodes) : t.wf = true := by
  induction nodes with
  | nil => cases hm
  | cons c rest ih =>
    cases hm with
    | head =>
      rw [Trie.wfKids] at hwf
      exact (Bool.and_eq_true ..).mp hwf |>.1
    | tail _ hm2 =>
      cases c with
      | none => rw [Trie.wfKids] at hwf; exact ih hwf hm2
      | some t2 =>
        rw [Trie.wfKids] at hwf
        exact ih ((Bool.and_eq_true ..).mp hwf).2 hm2

theorem Trie.wfKids_set {nodes : List (Option Trie)} {t : Trie} {i : Nat}
    (hwf : Trie.wfKids nodes = true) (ht : t.wf = true) :
    Trie.wfKids (nodes.set i (some t)) = true := by
  induction nodes generalizing i with
  | nil => simpa using hwf
  | cons c rest ih =>
    cases i with
    | zero =>
      rw [List.set]
      rw [Trie.wfKids, ht]
      cases c with
      | none => rw [Trie.wfKids] at hwf; simpa using hwf
      | some t2 => rw [Trie.wfKids] at hwf; simpa using ((Bool.and_eq_true ..).mp hwf).2
    | succ j =>
      rw [List.set]
      cases c with
      | none =>
        rw [Trie.wfKids] at hwf ⊢
        exact ih hwf
      | some t2 =>
        rw [Trie.wfKids] at hwf ⊢
        have h2 := (Bool.and_eq_true ..).mp hwf
        rw [h2.1, ih h2.2]
        rfl

theorem Trie.wfKids_replicate (n : Nat) :
    Trie.wfKids (List.replicate n none) = true := by
  induction n with
  | zero => rfl
  | succ m ih => rw [List.replicate, Trie.wfKids]; exact ih

theorem Trie.wf_new : Trie.new.wf = true := by
  rw [Trie.new, Trie.wf, Trie.wfKids_replicate, List.length_replicate]
  rfl

theorem Trie.wf_set {t : Trie} (hwf : t.wf = true) (k : List Nat)
    (v : Option (List Nat)) : (t.set k v).wf = true := by
  induction k generalizing t with
  | nil =>
    cases t with
    | node val nodes =>
      show Trie.wf (Trie.do_set (Trie.node val nodes) [] v) = true
      rw [Trie.do_set, Trie.wf]
      rw [Trie.wf] at hwf
      exact hwf
  | cons b rest ih =>
    cases t with
    | node val nodes =>
      rw [Trie.wf] at hwf
      have hlen := ((Bool.and_eq_true ..).mp hwf).1
      have hkids := ((Bool.and_eq_true ..).mp hwf).2
      show Trie.wf (Trie.do_set _ _ _) = true
      rw [Trie.do_set]
      cases hc : nodes.getD b none with
      | some node =>
        have hnwf : node.wf = true := by
          apply Trie.wfKids_mem hkids
          rw [List.getD_eq_getElem?_getD] at hc
          rcases he : nodes[b]? with _ | c
          · rw [he] at hc; simp at hc
          · rw [he] at hc; simp at hc
            exact hc ▸ List.getElem?_mem he
        rw [Trie.wf]
        simp only [List.length_set]
        rw [hlen]
        rw [Trie.wfKids_set hkids
          (show Trie.wf (Trie.do_set node rest v) = true from ih hnwf)]
        rfl
      | none =>
        rw [Trie.wf]
        simp only [List.length_set]
        rw [hlen]
        rw [Trie.wfKids_set hkids
          (show Trie.wf (Trie.do_set Trie.new rest v) = true from ih Trie.wf_new)]
        rfl

theorem Trie.wf_getD {val : Option (List Nat)} {nodes : List (Option Trie)}
    {b : Nat} {nd : Trie} (hwf : (Trie.node val nodes).wf = true)
    (hc : nodes.getD b none = some nd) : nd.wf = true := by
  rw [Trie.wf] at hwf
  apply Trie.wfKids_mem ((Bool.and_eq_true ..).mp hwf).2
  rw [List.getD_eq_getElem?_getD] at hc
  rcases he : nodes[b]? with _ | c
  · rw [he] at hc; simp at hc
  · rw [he] at hc; simp at hc
    exact hc ▸ List.getElem?_mem he

theorem Trie.getD_lt_length {nodes : List (Option Trie)} {b : Nat} {nd : Trie}
    (hc : nodes.getD b none = some nd) : b < nodes.length := by
  rw [List.getD_eq_getElem?_getD] at hc
  by_contra hge
  rw [List.getElem?_eq_none (Nat.le_of_not_lt hge)] at hc
  simp at hc

/-- Writing a key and reading it back with no intervening write returns the
written value (present or tombstone).  `hwf` is the 256-slot shape invariant;
`hk` says the key is a byte sequence (Rust `Vec<u8>`). -/
theorem Trie.get_set_self {t : Trie} (hwf : t.wf = true) {k : List Nat}
    (hk : ∀ b ∈ k, b < 256) (v : Option (List Nat)) : (t.set k v).get k = v := by
  induction k generalizing t with
  | nil =>
    cases t with
    | node val nodes => rfl
  | cons b rest ih =>
    cases t with
    | node val nodes =>
      have hb : b < 256 := hk b (List.mem_cons_self ..)
      have hrest : ∀ x ∈ rest, x < 256 := fun x hx => hk x (List.mem_cons_of_mem _ hx)
      have hlen : nodes.length = 256 := by
        rw [Trie.wf] at hwf
        exact beq_iff_eq.mp ((Bool.and_eq_true ..).mp hwf).1
      show Trie.do_get (Trie.do_set (Trie.node val nodes) (b :: rest) v) (b :: rest) = v
      rw [Trie.do_set]
      cases hc : nodes.getD b none with
      | some nd =>
        rw [Trie.do_get, List.getD_eq_getElem?_getD,
          List.getElem?_set_self (by rw [hlen]; exact hb)]
        exact ih (Trie.wf_getD hwf hc) hrest
      | none =>
        rw [Trie.do_get, List.getD_eq_getElem?_getD,
          List.getElem?_set_self (by rw [hlen]; exact hb)]
        exact ih Trie.wf_new hrest

/-- Writing key `k` does not change the value read at any other key `k2`
(order independence of distinct keys).  Holds for every trie and every pair of
distinct keys, byte-valued or not. -/
theorem Trie.get_set_ne {t : Trie} {k k2 : List Nat} (hne : k ≠ k2)
    (v : Option (List Nat)) : (t.set k v).get k2 = t.get k2 := by
  induction k generalizing t k2 with
  | nil =>
    cases t with
    | node val nodes =>
      cases k2 with
      | nil => exact absurd rfl hne
      | cons b2 r2 => rfl
  | cons b rest ih =>
    cases t with
    | node val nodes =>
      show Trie.do_get (Trie.do_set (Trie.node val nodes) (b :: rest) v) k2
        = Trie.do_get (Trie.node val nodes) k2
      rw [Trie.do_set]
      cases hc : nodes.getD b none with
      | some nd =>
        cases k2 with
        | nil => rfl
        | cons b2 r2 =>
          rw [Trie.do_get, Trie.do_get]
          by_cases hbb : b = b2
          · subst hbb
            have hrne : rest ≠ r2 := fun h => hne (h ▸ rfl)
            rw [List.getD_eq_getElem?_getD,
              List.getElem?_set_self (Trie.getD_lt_length hc), hc]
            show Trie.get (Trie.set nd rest v) r2 = Trie.get nd r2
            exact ih hrne
          · rw [List.getD_eq_getElem?_getD, List.getElem?_set_ne hbb,
              ← List.getD_eq_getElem?_getD]
      | none =>
        by_cases hblen : b < nodes.length
        · cases k2 with
          | nil => rfl
          | cons b2 r2 =>
            rw [Trie.do_get, Trie.do_get]
            by_cases hbb : b = b2
            · subst hbb
              have hrne : rest ≠ r2 := fun h => hne (h ▸ rfl)
              rw [List.getD_eq_getElem?_getD, List.getElem?_set_self hblen, hc]
              show Trie.get (Trie.set Trie.new rest v) r2 = none
              rw [ih hrne]
              exact Trie.get_new r2
            · rw [List.getD_eq_getElem?_getD, List.getElem?_set_ne hbb,
                ← List.getD_eq_getElem?_getD]
        · rw [List.set_eq_of_length_le (Nat.le_of_not_lt hblen)]

/-! ## WAL / snapshot record encoding and the recovery parser
(src/server/src/event.rs) -/

/-- The length-prefixed record the dispatcher appends to the WAL for a SET
event (event.rs lines 202-217): 2-byte big-endian key length
(`key.len() as u16 & LEN_MASK`), the key bytes, then either the tombstone
sentinel `NONE_VALUE_LEN` (two bytes, value absent) or the 2-byte masked
value length and the value bytes.  The snapshot writer `do_write`
(trie.rs lines 93-101) emits the identical layout for present values. -/
def walRecord (key : List Nat) (value : Option (List Nat)) : List Nat :=
  [(((key.length % 65536) &&& LEN_MASK) >>> 8) % 256, key.length % 256] ++ key ++
  (match value with
   | none => [(NONE_VALUE_LEN >>> 8) % 256, NONE_VALUE_LEN % 256]
   | some v => [(((v.length % 65536) &&& LEN_MASK) >>> 8) % 256, v.length % 256] ++ v)

/-- `EventHandler::load` (event.rs lines 106-136), the recovery parser: walk
`buf` with a running `index`, reading `[2-byte key length][key][2-byte value
length-or-tombstone][value]` records and applying each to the trie; any bound
check failing breaks the loop.  The Rust `while` becomes recursion on the
remaining byte count (each iteration advances `index` by at least 4); slice
reads `buf[i]` become `buf.getD i 0` (every access is guarded, see
EventHandler.loadChecked_eq). -/
def EventHandler.loadGo (trie : Trie) (buf : List Nat) (index : Nat) : Trie :=
  if h0 : index < buf.length then
    if index + 2 > buf.length then trie
    else
      let key_len := (buf.getD index 0 * 0x100 + buf.getD (index + 1) 0) &&& LEN_MASK
      if index + 2 + key_len + 2 > buf.length then trie
      else
        let key := (buf.drop (index + 2)).take key_len
        let value_len := buf.getD (index + 2 + key_len) 0 * 0x100 +
          buf.getD (index + 2 + key_len + 1) 0
        if value_len = NONE_VALUE_LEN then
          EventHandler.loadGo (trie.set key none) buf (index + 2 + key_len + 2)
        else
          let value_len := value_len &&& LEN_MASK
          if index + 2 + key_len + 2 + value_len > buf.length then trie
          else
            let value := (buf.drop (index + 2 + key_len + 2)).take value_len
            EventHandler.loadGo (trie.set key (some value)) buf
              (index + 2 + key_len + 2 + value_len)
  else trie
termination_by buf.length - index
decreasing_by
  · omega
  · omega

/-- `EventHandler::load` starts at `index = 0` (event.rs line 111). -/
def EventHandler.load (trie : Trie) (buf : List Nat) : Trie :=
  EventHandler.loadGo trie buf 0

/-- The same parser reformulated to consume its buffer from the front
(`loadGo trie buf index = loadConsume trie (buf.drop index)`, proved in
loadGo_eq_consume); this form is convenient for induction over records. -/
def loadConsume (trie : Trie) (buf : List Nat) : Trie :=
  if h0 : 0 < buf.length then
    if 2 > buf.length then trie
    else
      let key_len := (buf.getD 0 0 * 0x100 + buf.getD 1 0) &&& LEN_MASK
      if 2 + key_len + 2 > buf.length then trie
      else
        let key := (buf.drop 2).take key_len
        let value_len := buf.getD (2 + key_len) 0 * 0x100 + buf.getD (2 + key_len + 1) 0
        if value_len = NONE_VALUE_LEN then
          loadConsume (trie.set key none) (buf.drop (2 + key_len + 2))
        else
          let value_len := value_len &&& LEN_MASK
          if 2 + key_len + 2 + value_len > buf.length then trie
          else
            let value := (buf.drop (2 + key_len + 2)).take value_len
            loadConsume (trie.set key (some value)) (buf.drop (2 + key_len + 2 + value_len))
  else trie
termination_by buf.length
decreasing_by
  · simp only [List.length_drop]; omega
  · simp only [List.length_drop]; omega

theorem getD_drop_add (l : List Nat) (n j : Nat) :
    (l.drop n).getD j 0 = l.getD (n + j) 0 := by
  rw [List.getD_eq_getElem?_getD, List.getD_eq_getElem?_getD, List.getElem?_drop]

theorem loadGo_eq_consume_fuel :
    ∀ (fuel : Nat) (trie : Trie) (buf : List Nat) (index : Nat),
    buf.length - index ≤ fuel →
    EventHandler.loadGo trie buf index = loadConsume trie (buf.drop index) := by
  intro fuel
  induction fuel with
  | zero =>
    intro trie buf index h
    rw [EventHandler.loadGo.eq_def, loadConsume.eq_def]
    rw [dif_neg (by omega), dif_neg (by simp only [List.length_drop]; omega)]
  | succ n ih =>
    intro trie buf index h
    rw [EventHandler.loadGo.eq_def, loadConsume.eq_def]
    by_cases h0 : index < buf.length
    case neg =>
      rw [dif_neg h0, dif_neg (by simp only [List.length_drop]; omega)]
    case pos =>
      rw [dif_pos h0, dif_pos (by simp only [List.length_drop]; omega)]
      simp only [List.length_drop, getD_drop_add, List.drop_drop, Nat.add_zero,
        Nat.add_assoc]
      by_cases h1 : index + 2 > buf.length
      · rw [if_pos h1, if_pos (show 2 > buf.length - index by omega)]
      · rw [if_neg h1, if_neg (show ¬ 2 > buf.length - index by omega)]
        set kl := (buf.getD index 0 * 0x100 + buf.getD (index + 1) 0) &&& LEN_MASK
          with hkl
        by_cases h2 : index + (2 + (kl + 2)) > buf.length
        · rw [if_pos h2, if_pos (show 2 + (kl + 2) > buf.length - index by omega)]
        · rw [if_neg h2,
            if_neg (show ¬ 2 + (kl + 2) > buf.length - index by omega)]
          set vl := buf.getD (index + (2 + kl)) 0 * 0x100 +
            buf.getD (index + (2 + (kl + 1))) 0 with hvl
          by_cases h3 : vl = NONE_VALUE_LEN
          · rw [if_pos h3, if_pos h3]
            apply ih
            omega
          · rw [if_neg h3, if_neg h3]
            by_cases h4 : index + (2 + (kl + (2 + (vl &&& LEN_MASK)))) > buf.length
            · rw [if_pos h4, if_pos (show 2 + (kl + (2 + (vl &&& LEN_MASK))) >
                buf.length - index by omega)]
            · rw [if_neg h4, if_neg (show ¬ 2 + (kl + (2 + (vl &&& LEN_MASK))) >
                buf.length - index by omega)]
              apply ih
              omega

theorem loadGo_eq_consume (trie : Trie) (buf : List Nat) (index : Nat) :
    EventHandler.loadGo trie buf index = loadConsume trie (buf.drop index) :=
  loadGo_eq_consume_fuel (buf.length - index) trie buf index (Nat.le_refl _)

theorem load_eq_consume (trie : Trie) (buf : List Nat) :
    EventHandler.load trie buf = loadConsume trie buf := by
  rw [EventHandler.load, loadGo_eq_consume, List.drop_zero]

/-! ### Correctness of the 2-byte length encoding -/

theorem and_LEN_MASK {n : Nat} (h : n ≤ LEN_MASK) : n &&& LEN_MASK = n := by
  have h2 : n < 2 ^ 15 := by
    have : LEN_MASK = 2 ^ 15 - 1 := by decide
    omega
  have h3 := Nat.and_pow_two_sub_one_of_lt_two_pow h2
  have h4 : (2 : Nat) ^ 15 - 1 = LEN_MASK := by decide
  rw [h4] at h3
  exact h3

theorem enc16_eq {n : Nat} (h : n ≤ LEN_MASK) :
    ((((n % 65536) &&& LEN_MASK) >>> 8) % 256) * 0x100 + n % 256 = n := by
  have hlt : n < 65536 := by
    have : LEN_MASK < 65536 := by decide
    omega
  rw [Nat.mod_eq_of_lt hlt, and_LEN_MASK h]
  have hdiv : n >>> 8 = n / 2 ^ 8 := Nat.shiftRight_eq_div_pow n 8
  rw [hdiv]
  have h256 : (2 : Nat) ^ 8 = 256 := by decide
  rw [h256]
  have hq : n / 256 < 256 := by omega
  rw [Nat.mod_eq_of_lt hq]
  omega

theorem enc16_mask {n : Nat} (h : n ≤ LEN_MASK) :
    (((((n % 65536) &&& LEN_MASK) >>> 8) % 256) * 0x100 + n % 256) &&& LEN_MASK = n := by
  rw [enc16_eq h, and_LEN_MASK h]

/-! ### getD on appends -/

theorem getD_append_left_of_lt {l1 l2 : List Nat} {j : Nat} (h : j < l1.length) :
    (l1 ++ l2).getD j 0 = l1.getD j 0 := by
  rw [List.getD_eq_getElem?_getD, List.getD_eq_getElem?_getD,
    List.getElem?_append_left h]

theorem getD_append_right_len {l1 l2 : List Nat} {j : Nat} (h : l1.length ≤ j) :
    (l1 ++ l2).getD j 0 = l2.getD (j - l1.length) 0 := by
  rw [List.getD_eq_getElem?_getD, List.getD_eq_getElem?_getD,
    List.getElem?_append_right h]

theorem getD_cons_cons_add_two (a b : Nat) (l : List Nat) (j : Nat) :
    (a :: b :: l).getD (2 + j) 0 = l.getD j 0 := by
  rw [Nat.add_comm 2 j]
  rfl

theorem drop_cons_cons_add_two (a b : Nat) (l : List Nat) (j : Nat) :
    (a :: b :: l).drop (2 + j) = l.drop j := by
  rw [Nat.add_comm 2 j]
  rfl

theorem getD_cc_zero (a b : Nat) (l : List Nat) : (a :: b :: l).getD 0 0 = a := rfl

theorem getD_cc_one (a b : Nat) (l : List Nat) : (a :: b :: l).getD 1 0 = b := rfl

theorem drop_cc_two (a b : Nat) (l : List Nat) : (a :: b :: l).drop 2 = l := rfl

/-- One complete tombstone record at the front of the buffer is parsed and
applied as `set key none`; parsing continues on the remaining bytes. -/
theorem loadConsume_step_none (trie : Trie) (b0 b1 c0 c1 : Nat)
    (key rest : List Nat)
    (hdec : (b0 * 0x100 + b1) &&& LEN_MASK = key.length)
    (hcn : c0 * 0x100 + c1 = NONE_VALUE_LEN) :
    loadConsume trie (b0 :: b1 :: (key ++ (c0 :: c1 :: rest))) =
    loadConsume (trie.set key none) rest := by
  have hlen : (b0 :: b1 :: (key ++ (c0 :: c1 :: rest))).length
      = key.length + rest.length + 4 := by
    simp [List.length_append]
    omega
  rw [loadConsume.eq_def]
  rw [dif_pos (by rw [hlen]; omega)]
  rw [if_neg (by rw [hlen]; omega)]
  simp only [getD_cc_zero, getD_cc_one, hdec, hcn, Nat.add_assoc,
    getD_cons_cons_add_two, drop_cc_two, drop_cons_cons_add_two,
    getD_append_right_len, List.take_left, List.drop_append, Nat.add_sub_cancel_left,
    Nat.sub_self, Nat.le_refl, Nat.le_add_right]
  rw [if_neg (by rw [hlen]; omega)]
  rw [if_pos trivial]

/-- One complete value-carrying record at the front of the buffer is parsed
and applied as `set key (some v)`; parsing continues on the remaining bytes. -/
theorem loadConsume_step_some (trie : Trie) (b0 b1 c0 c1 : Nat)
    (key v rest : List Nat)
    (hdec : (b0 * 0x100 + b1) &&& LEN_MASK = key.length)
    (hcv : c0 * 0x100 + c1 = v.length)
    (hvne : v.length ≠ NONE_VALUE_LEN)
    (hvm : v.length &&& LEN_MASK = v.length) :
    loadConsume trie (b0 :: b1 :: (key ++ (c0 :: c1 :: (v ++ rest)))) =
    loadConsume (trie.set key (some v)) rest := by
  have hlen : (b0 :: b1 :: (key ++ (c0 :: c1 :: (v ++ rest)))).length
      = key.length + v.length + rest.length + 4 := by
    simp [List.length_append]
    omega
  rw [loadConsume.eq_def]
  rw [dif_pos (by rw [hlen]; omega)]
  rw [if_neg (by rw [hlen]; omega)]
  simp only [getD_cc_zero, getD_cc_one, hdec, hcv, hvm, Nat.add_assoc,
    getD_cons_cons_add_two, drop_cc_two, drop_cons_cons_add_two,
    getD_append_right_len, List.take_left, List.drop_append, List.drop_left,
    Nat.add_sub_cancel_left, Nat.sub_self, Nat.le_refl, Nat.le_add_right]
  rw [if_neg (by rw [hlen]; omega)]
  rw [if_neg hvne]
  rw [if_neg (by rw [hlen]; omega)]

/-- Parsing one full WAL-format record applies it to the trie and continues. -/
theorem loadConsume_record (trie : Trie) (key : List Nat) (value : Option (List Nat))
    (rest : List Nat) (hk : key.length ≤ LEN_MASK)
    (hv : ∀ w, value = some w → w.length ≤ LEN_MASK) :
    loadConsume trie (walRecord key value ++ rest) =
    loadConsume (trie.set key value) rest := by
  cases value with
  | none =>
    have hshape : walRecord key none ++ rest =
        ((((key.length % 65536) &&& LEN_MASK) >>> 8) % 256) :: (key.length % 256) ::
        (key ++ (((NONE_VALUE_LEN >>> 8) % 256) :: (NONE_VALUE_LEN % 256) :: rest)) := by
      simp [walRecord]
    rw [hshape]
    exact loadConsume_step_none trie _ _ _ _ key rest (enc16_mask hk) (by decide)
  | some v =>
    have hvl := hv v rfl
    have hshape : walRecord key (some v) ++ rest =
        ((((key.length % 65536) &&& LEN_MASK) >>> 8) % 256) :: (key.length % 256) ::
        (key ++ (((((v.length % 65536) &&& LEN_MASK) >>> 8) % 256) :: (v.length % 256) ::
          (v ++ rest))) := by
      simp [walRecord]
    rw [hshape]
    refine loadConsume_step_some trie _ _ _ _ key v rest (enc16_mask hk)
      (enc16_eq hvl) ?hne (and_LEN_MASK hvl)
    have h1 : LEN_MASK = 32767 := rfl
    have h2 : NONE_VALUE_LEN = 65535 := rfl
    omega

/-- A list of records, each a key and a present-or-absent value, encoded
back-to-back in the on-disk record format. -/
def encodeRecs (rs : List (List Nat × Option (List Nat))) : List Nat :=
  (rs.map (fun r => walRecord r.1 r.2)).flatten

/-- Replaying a record list into the trie in order, with `Trie::set`,
as the dispatcher and the recovery parser do. -/
def applyRecs (trie : Trie) (rs : List (List Nat × Option (List Nat))) : Trie :=
  rs.foldl (fun t r => t.set r.1 r.2) trie

/-- A record is well formed when its key and (present) value fit the 15-bit
length field of the wire format. -/
def WFRec (r : List Nat × Option (List Nat)) : Prop :=
  r.1.length ≤ LEN_MASK ∧ ∀ w, r.2 = some w → w.length ≤ LEN_MASK

/-- The parser replays a whole stream of complete well-formed records, in
order, and then continues with whatever follows the stream. -/
theorem loadConsume_records (trie : Trie) (rs : List (List Nat × Option (List Nat)))
    (tail : List Nat) (hwf : ∀ r ∈ rs, WFRec r) :
    loadConsume trie (encodeRecs rs ++ tail) = loadConsume (applyRecs trie rs) tail := by
  induction rs generalizing trie with
  | nil => simp [encodeRecs, applyRecs]
  | cons r rs2 ih =>
    have hr := hwf r (List.mem_cons_self ..)
    have hsh : encodeRecs (r :: rs2) ++ tail =
        walRecord r.1 r.2 ++ (encodeRecs rs2 ++ tail) := by
      simp [encodeRecs]
    rw [hsh, loadConsume_record trie r.1 r.2 _ hr.1 hr.2]
    rw [ih _ (fun q hq => hwf q (List.mem_cons_of_mem _ hq))]
    rw [applyRecs, applyRecs, List.foldl_cons]

/-- The conditions under which the parser's bound checks cut the buffer off
(event.rs lines 113-114, 118, 128) plus the empty buffer: fewer than 2 bytes;
not enough bytes for the declared key length plus a value-length field; a
non-tombstone declared value length exceeding the remaining bytes.  This is
exactly "a truncated trailing record". -/
def IsTruncated (frag : List Nat) : Prop :=
  frag.length = 0 ∨ frag.length < 2 ∨
  (2 + ((frag.getD 0 0 * 0x100 + frag.getD 1 0) &&& LEN_MASK) + 2 > frag.length) ∨
  (frag.getD (2 + ((frag.getD 0 0 * 0x100 + frag.getD 1 0) &&& LEN_MASK)) 0 * 0x100 +
      frag.getD (2 + ((frag.getD 0 0 * 0x100 + frag.getD 1 0) &&& LEN_MASK) + 1) 0
      ≠ NONE_VALUE_LEN ∧
    2 + ((frag.getD 0 0 * 0x100 + frag.getD 1 0) &&& LEN_MASK) + 2 +
      ((frag.getD (2 + ((frag.getD 0 0 * 0x100 + frag.getD 1 0) &&& LEN_MASK)) 0 * 0x100 +
        frag.getD (2 + ((frag.getD 0 0 * 0x100 + frag.getD 1 0) &&& LEN_MASK) + 1) 0)
        &&& LEN_MASK) > frag.length)

instance (frag : List Nat) : Decidable (IsTruncated frag) := by
  unfold IsTruncated
  infer_instance

/-- A truncated trailing record is silently discarded: the parser returns the
trie unchanged, with no error. -/
theorem loadConsume_truncated (trie : Trie) (frag : List Nat)
    (h : IsTruncated frag) : loadConsume trie frag = trie := by
  rw [loadConsume.eq_def]
  simp only []
  rcases h with h0 | h1 | h2 | h3
  · rw [dif_neg (by omega)]
  · by_cases hp : 0 < frag.length
    · rw [dif_pos hp, if_pos (by omega)]
    · rw [dif_neg hp]
  · by_cases hp : 0 < frag.length
    · by_cases hq : 2 > frag.length
      · rw [dif_pos hp, if_pos hq]
      · rw [dif_pos hp, if_neg hq, if_pos h2]
    · rw [dif_neg hp]
  · by_cases hp : 0 < frag.length
    · by_cases hq : 2 > frag.length
      · rw [dif_pos hp, if_pos hq]
      · by_cases hr : 2 + ((frag.getD 0 0 * 0x100 + frag.getD 1 0) &&& LEN_MASK) + 2 >
            frag.length
        · rw [dif_pos hp, if_neg hq, if_pos hr]
        · rw [dif_pos hp, if_neg hq, if_neg hr, if_neg h3.1, if_pos h3.2]
    · rw [dif_neg hp]

theorem getD_eq_getElem_of_lt {l : List Nat} {i : Nat} (h : i < l.length) :
    l.getD i 0 = l[i] := by
  rw [List.getD_eq_getElem?_getD, List.getElem?_eq_getElem h]
  rfl

/-- The recovery parser with every buffer access explicitly checked: an index
read `buf[i]` yields `none` (modelling a Rust slice panic) unless `i` is in
bounds, and a slice `&buf[a..b]` requires `b ≤ buf.length`.  Mirrors
EventHandler.loadGo access for access; EventHandler.loadCheckedGo_eq proves
the checks never fire. -/
def EventHandler.loadCheckedGo (trie : Trie) (buf : List Nat) (index : Nat) :
    Option Trie :=
  if h0 : index < buf.length then
    if index + 2 > buf.length then some trie
    else
      match buf[index]?, buf[index + 1]? with
      | some x0, some x1 =>
        let key_len := (x0 * 0x100 + x1) &&& LEN_MASK
        if index + 2 + key_len + 2 > buf.length then some trie
        else if index + 2 + key_len ≤ buf.length then
          let key := (buf.drop (index + 2)).take key_len
          match buf[index + 2 + key_len]?, buf[index + 2 + key_len + 1]? with
          | some y0, some y1 =>
            let value_len := y0 * 0x100 + y1
            if value_len = NONE_VALUE_LEN then
              EventHandler.loadCheckedGo (trie.set key none) buf (index + 2 + key_len + 2)
            else
              let value_len := value_len &&& LEN_MASK
              if index + 2 + key_len + 2 + value_len > buf.length then some trie
              else if index + 2 + key_len + 2 + value_len ≤ buf.length then
                let value := (buf.drop (index + 2 + key_len + 2)).take value_len
                EventHandler.loadCheckedGo (trie.set key (some value)) buf
                  (index + 2 + key_len + 2 + value_len)
              else none
          | _, _ => none
        else none
      | _, _ => none
  else some trie
termination_by buf.length - index
decreasing_by
  · omega
  · omega

theorem loadCheckedGo_eq_fuel :
    ∀ (fuel : Nat) (trie : Trie) (buf : List Nat) (index : Nat),
    buf.length - index ≤ fuel →
    EventHandler.loadCheckedGo trie buf index = some (EventHandler.loadGo trie buf index) := by
  intro fuel
  induction fuel with
  | zero =>
    intro trie buf index h
    rw [EventHandler.loadCheckedGo.eq_def, EventHandler.loadGo.eq_def]
    rw [dif_neg (by omega), dif_neg (by omega)]
  | succ n ih =>
    intro trie buf index h
    rw [EventHandler.loadCheckedGo.eq_def, EventHandler.loadGo.eq_def]
    by_cases h0 : index < buf.length
    case neg => rw [dif_neg h0, dif_neg h0]
    case pos =>
      rw [dif_pos h0, dif_pos h0]
      by_cases h1 : index + 2 > buf.length
      · rw [if_pos h1, if_pos h1]
      · rw [if_neg h1, if_neg h1]
        rw [List.getElem?_eq_getElem (show index < buf.length by omega),
          List.getElem?_eq_getElem (show index + 1 < buf.length by omega),
          getD_eq_getElem_of_lt (show index < buf.length by omega),
          getD_eq_getElem_of_lt (show index + 1 < buf.length by omega)]
        simp only []
        set kl := (buf[index] * 0x100 + buf[index + 1]) &&& LEN_MASK with hkl
        by_cases h2 : index + 2 + kl + 2 > buf.length
        · rw [if_pos h2, if_pos h2]
        · rw [if_neg h2, if_neg h2, if_pos (show index + 2 + kl ≤ buf.length by omega)]
          rw [List.getElem?_eq_getElem (show index + 2 + kl < buf.length by omega),
            List.getElem?_eq_getElem (show index + 2 + kl + 1 < buf.length by omega),
            getD_eq_getElem_of_lt (show index + 2 + kl < buf.length by omega),
            getD_eq_getElem_of_lt (show index + 2 + kl + 1 < buf.length by omega)]
          simp only []
          set vl := buf[index + 2 + kl] * 0x100 + buf[index + 2 + kl + 1] with hvl
          by_cases h3 : vl = NONE_VALUE_LEN
          · rw [if_pos h3, if_pos h3]
            apply ih
            omega
          · rw [if_neg h3, if_neg h3]
            by_cases h4 : index + 2 + kl + 2 + (vl &&& LEN_MASK) > buf.length
            · rw [if_pos h4, if_pos h4]
            · rw [if_neg h4, if_neg h4,
                if_pos (show index + 2 + kl + 2 + (vl &&& LEN_MASK) ≤ buf.length by omega)]
              apply ih
              omega

/-- Checked equals unchecked: no access of the recovery parser is ever out of
bounds; parsing any byte buffer, however malformed, returns normally. -/
theorem EventHandler.loadChecked_eq (trie : Trie) (buf : List Nat) :
    EventHandler.loadCheckedGo trie buf 0 = some (EventHandler.load trie buf) :=
  loadCheckedGo_eq_fuel (buf.length - 0) trie buf 0 (Nat.le_refl _)

/-! ## Snapshot traversal (trie.rs lines 87-114) -/

mutual

/-- `Trie::do_save` (trie.rs lines 92-114) as the list of records it emits in
order: a node with a present value first emits one `(key, value)` record
(`do_write`); nodes with no value emit nothing (tombstones never reach a
snapshot); then the children are visited in ascending slot order, the slot
byte appended to the key accumulator (`key.push(i)` / `key.pop()`). -/
def Trie.do_save : Trie → List Nat → List (List Nat × List Nat)
  | Trie.node value nodes, key =>
    (match value with
     | some v => [(key, v)]
     | none => []) ++ Trie.saveKids nodes 0 key

/-- The `for i in 0..NODE_SIZE` loop of do_save, slot position tracked. -/
def Trie.saveKids : List (Option Trie) → Nat → List Nat → List (List Nat × List Nat)
  | [], _, _ => []
  | none :: rest, i, key => Trie.saveKids rest (i + 1) key
  | some n :: rest, i, key =>
    Trie.do_save n (key ++ [i]) ++ Trie.saveKids rest (i + 1) key

end

/-- `Trie::save` (trie.rs lines 87-90): the byte stream `do_save` writes to
the snapshot file, each record in `do_write`'s layout — identical to the WAL
layout `walRecord key (some value)` for a present value. -/
def Trie.saveBytes (t : Trie) : List Nat :=
  encodeRecs ((t.do_save []).map (fun r => (r.1, some r.2)))

/-- Every record key and value emitted by the snapshot traversal fits the
15-bit length field. -/
def Trie.saveBounded (t : Trie) : Bool :=
  (t.do_save []).all
    (fun r => decide (r.1.length ≤ LEN_MASK) && decide (r.2.length ≤ LEN_MASK))

mutual

/-- Every record `do_save` emits lies under the key prefix and reads back
from the trie: its key is `pre ++ suf` with `t.get suf = some v`. -/
theorem Trie.do_save_mem : ∀ (t : Trie) (pre k v : List Nat),
    (k, v) ∈ t.do_save pre → ∃ suf, k = pre ++ suf ∧ t.get suf = some v
  | Trie.node value nodes, pre, k, v => by
    intro hm
    rw [Trie.do_save.eq_def] at hm
    rcases List.mem_append.mp hm with h | h
    · cases value with
      | some w =>
        simp at h
        refine ⟨[], by simp [h.1], ?_⟩
        show Trie.do_get (Trie.node (some w) nodes) [] = some v
        rw [Trie.do_get, h.2]
      | none => simp at h
    · obtain ⟨b, suf, hb, nd, hgd, hk, hget⟩ :=
        Trie.saveKids_mem nodes 0 pre k v h
      refine ⟨b :: suf, hk, ?_⟩
      show Trie.do_get (Trie.node value nodes) (b :: suf) = some v
      rw [Trie.do_get]
      rw [Nat.sub_zero] at hgd
      rw [hgd]
      exact hget

theorem Trie.saveKids_mem : ∀ (cs : List (Option Trie)) (i : Nat) (pre k v : List Nat),
    (k, v) ∈ Trie.saveKids cs i pre →
    ∃ b suf, i ≤ b ∧ ∃ nd, cs.getD (b - i) none = some nd ∧
      k = pre ++ b :: suf ∧ nd.get suf = some v
  | [], i, pre, k, v => by
    intro hm
    rw [Trie.saveKids.eq_def] at hm
    cases hm
  | none :: rest, i, pre, k, v => by
    intro hm
    rw [Trie.saveKids.eq_def] at hm
    obtain ⟨b, suf, hb, nd, hgd, hk, hget⟩ := Trie.saveKids_mem rest (i + 1) pre k v hm
    refine ⟨b, suf, by omega, nd, ?_, hk, hget⟩
    have hbi : b - i = (b - (i + 1)) + 1 := by omega
    rw [hbi, List.getD_cons_succ]
    exact hgd
  | some n :: rest, i, pre, k, v => by
    intro hm
    rw [Trie.saveKids.eq_def] at hm
    rcases List.mem_append.mp hm with h | h
    · obtain ⟨suf, hk, hget⟩ := Trie.do_save_mem n (pre ++ [i]) k v h
      refine ⟨i, suf, Nat.le_refl _, n, ?_, ?_, hget⟩
      · rw [Nat.sub_self]
        rfl
      · rw [hk, List.append_assoc]
        rfl
    · obtain ⟨b, suf, hb, nd, hgd, hk, hget⟩ := Trie.saveKids_mem rest (i + 1) pre k v h
      refine ⟨b, suf, by omega, nd, ?_, hk, hget⟩
      have hbi : b - i = (b - (i + 1)) + 1 := by omega
      rw [hbi, List.getD_cons_succ]
      exact hgd

end

/-- Strip `pre` from the front of `k`: `some suf` iff `k = pre ++ suf`. -/
def stripPre : List Nat → List Nat → Option (List Nat)
  | [], k => some k
  | _ :: _, [] => none
  | p :: ps, x :: xs => if p = x then stripPre ps xs else none

theorem stripPre_append (pre suf : List Nat) : stripPre pre (pre ++ suf) = some suf := by
  induction pre with
  | nil => rfl
  | cons p ps ih => simp [stripPre, ih]

theorem stripPre_eq_some {pre k suf : List Nat} (h : stripPre pre k = some suf) :
    k = pre ++ suf := by
  induction pre generalizing k with
  | nil =>
    rw [stripPre] at h
    simpa using h
  | cons p ps ih =>
    cases k with
    | nil => exact absurd h (by rw [stripPre]; simp)
    | cons x xs =>
      rw [stripPre] at h
      by_cases hpx : p = x
      · rw [if_pos hpx] at h
        rw [List.cons_append, ← hpx, ih h]
      · rw [if_neg hpx] at h
        cases h

theorem stripPre_snoc (pre : List Nat) (b : Nat) (k : List Nat) :
    stripPre (pre ++ [b]) k =
      match stripPre pre k with
      | some (x :: suf) => if b = x then some suf else none
      | _ => none := by
  induction pre generalizing k with
  | nil =>
    cases k with
    | nil => rfl
    | cons x xs => rfl
  | cons p ps ih =>
    cases k with
    | nil => rfl
    | cons x xs =>
      rw [List.cons_append, stripPre, stripPre]
      by_cases hpx : p = x
      · rw [if_pos hpx, if_pos hpx, ih]
      · rw [if_neg hpx, if_neg hpx]

/-- Descend one child slot then read: `get` on a node equals `kidGet` on its
child list (for a non-empty key). -/
def kidGet (cs : List (Option Trie)) (j : Nat) (suf : List Nat) : Option (List Nat) :=
  match cs.getD j none with
  | some nd => nd.get suf
  | none => none

/-- Read `o` but fall back to `T.get k` when absent. -/
def orGet (o : Option (List Nat)) (T : Trie) (k : List Nat) : Option (List Nat) :=
  match o with
  | some v => some v
  | none => T.get k

theorem get_node_cons (value : Option (List Nat)) (nodes : List (Option Trie))
    (b : Nat) (suf : List Nat) :
    (Trie.node value nodes).get (b :: suf) = kidGet nodes b suf := rfl

/-- Replaying records whose keys all differ from `k` leaves `get k` unchanged. -/
theorem applyRecs_get_ne (rs : List (List Nat × Option (List Nat))) (T : Trie)
    (k : List Nat) (h : ∀ r ∈ rs, r.1 ≠ k) :
    (applyRecs T rs).get k = T.get k := by
  induction rs generalizing T with
  | nil => rfl
  | cons r rs2 ih =>
    rw [applyRecs, List.foldl_cons]
    have h1 : (applyRecs (T.set r.1 r.2) rs2).get k = (T.set r.1 r.2).get k :=
      ih _ (fun q hq => h q (List.mem_cons_of_mem _ hq))
    show (applyRecs (T.set r.1 r.2) rs2).get k = T.get k
    rw [h1, Trie.get_set_ne (h r (List.mem_cons_self ..))]

theorem applyRecs_wf (rs : List (List Nat × Option (List Nat))) {T : Trie}
    (h : T.wf = true) : (applyRecs T rs).wf = true := by
  induction rs generalizing T with
  | nil => exact h
  | cons r rs2 ih =>
    rw [applyRecs, List.foldl_cons]
    exact ih (Trie.wf_set h r.1 r.2)

theorem applyRecs_append (rs1 rs2 : List (List Nat × Option (List Nat))) (T : Trie) :
    applyRecs T (rs1 ++ rs2) = applyRecs (applyRecs T rs1) rs2 := by
  rw [applyRecs, applyRecs, applyRecs, List.foldl_append]

/-- View a snapshot record as a WAL-format record (value always present). -/
def toRec (r : List Nat × List Nat) : List Nat × Option (List Nat) :=
  (r.1, some r.2)

theorem kidGet_cons_none (rest : List (Option Trie)) (j : Nat) (suf : List Nat) :
    kidGet (none :: rest) (j + 1) suf = kidGet rest j suf := by
  rw [kidGet, kidGet, List.getD_cons_succ]

theorem kidGet_cons_some (n : Trie) (rest : List (Option Trie)) (j : Nat)
    (suf : List Nat) :
    kidGet (some n :: rest) (j + 1) suf = kidGet rest j suf := by
  rw [kidGet, kidGet, List.getD_cons_succ]


mutual

/-- Replaying the records that `do_save` emits under prefix `pre` into any
well-formed trie `T` overrides exactly the keys `pre ++ suf` for which the
snapshotted trie holds a value, and touches nothing else. -/
theorem Trie.do_save_replay : ∀ (t : Trie), t.wf = true →
    ∀ (pre : List Nat), (∀ b ∈ pre, b < 256) →
    ∀ (T : Trie), T.wf = true → ∀ (k : List Nat),
    (applyRecs T ((t.do_save pre).map toRec)).get k =
      (match stripPre pre k with
       | some suf => orGet (t.get suf) T k
       | none => T.get k)
  | Trie.node value nodes, hwf, pre, hpre, T, hTwf, k => by
    have hlen : nodes.length = 256 := by
      rw [Trie.wf] at hwf
      exact beq_iff_eq.mp ((Bool.and_eq_true ..).mp hwf).1
    have hkids : Trie.wfKids nodes = true := by
      rw [Trie.wf] at hwf
      exact ((Bool.and_eq_true ..).mp hwf).2
    rw [Trie.do_save.eq_def, List.map_append, applyRecs_append]
    rw [Trie.saveKids_replay nodes hkids 0 (by omega) pre hpre _
      (applyRecs_wf _ hTwf) k]
    cases value with
    | none =>
      simp only [List.map_nil]
      cases hsp : stripPre pre k with
      | none => rfl
      | some s =>
        cases s with
        | nil => simp only []; rfl
        | cons b suf =>
          simp only [Nat.zero_le, if_true, Nat.sub_zero]
          rw [get_node_cons]
          rfl
    | some w =>
      simp only [List.map_cons, List.map_nil]
      have hT1 : applyRecs T [toRec (pre, w)] = T.set pre (some w) := rfl
      rw [hT1]
      cases hsp : stripPre pre k with
      | none =>
        simp only []
        have hkne : pre ≠ k := by
          intro he
          rw [← he] at hsp
          have h2 : stripPre pre pre = some [] := by
            have h3 := stripPre_append pre []
            simpa using h3
          rw [h2] at hsp
          cases hsp
        exact Trie.get_set_ne hkne _
      | some s =>
        cases s with
        | nil =>
          simp only []
          have hk : k = pre := by
            have h2 := stripPre_eq_some hsp
            simpa using h2
          rw [hk, Trie.get_set_self hTwf hpre]
          rfl
        | cons b suf =>
          have hk : k = pre ++ b :: suf := stripPre_eq_some hsp
          have hkne : pre ≠ k := by
            intro he
            rw [hk] at he
            have h2 := congrArg List.length he
            simp at h2
          simp only [Nat.zero_le, if_true, Nat.sub_zero]
          rw [get_node_cons]
          cases hkg : kidGet nodes b suf with
          | some v => rfl
          | none =>
            show (T.set pre (some w)).get k = orGet none T k
            rw [show orGet none T k = T.get k from rfl]
            exact Trie.get_set_ne hkne _

/-- The children-loop analogue of do_save_replay: the list `cs` sits at slot
offset `i` of a node whose key is `pre`. -/
theorem Trie.saveKids_replay : ∀ (cs : List (Option Trie)), Trie.wfKids cs = true →
    ∀ (i : Nat), i + cs.length ≤ 256 →
    ∀ (pre : List Nat), (∀ b ∈ pre, b < 256) →
    ∀ (T : Trie), T.wf = true → ∀ (k : List Nat),
    (applyRecs T ((Trie.saveKids cs i pre).map toRec)).get k =
      (match stripPre pre k with
       | some (b :: suf) =>
         if i ≤ b then orGet (kidGet cs (b - i) suf) T k else T.get k
       | _ => T.get k)
  | [], hwfk, i, hi, pre, hpre, T, hTwf, k => by
    rw [Trie.saveKids.eq_def]
    simp only [List.map_nil]
    show T.get k = _
    cases hsp : stripPre pre k with
    | none => simp only []
    | some s =>
      cases s with
      | nil => simp only []
      | cons b suf =>
        simp only []
        by_cases hib : i ≤ b
        · rw [if_pos hib]
          rfl
        · rw [if_neg hib]
  | none :: rest, hwfk, i, hi, pre, hpre, T, hTwf, k => by
    rw [Trie.saveKids.eq_def]
    have hrest : Trie.wfKids rest = true := by
      rw [Trie.wfKids] at hwfk
      exact hwfk
    rw [Trie.saveKids_replay rest hrest (i + 1) (by simp at hi; omega) pre hpre
      T hTwf k]
    cases hsp : stripPre pre k with
    | none => simp only []
    | some s =>
      cases s with
      | nil => simp only []
      | cons b suf =>
        simp only []
        by_cases hib : i ≤ b
        · rw [if_pos hib]
          by_cases hib1 : i + 1 ≤ b
          · rw [if_pos hib1]
            have hbi : b - i = (b - (i + 1)) + 1 := by omega
            rw [hbi, kidGet_cons_none]
          · rw [if_neg hib1]
            have hbi : b = i := by omega
            rw [hbi, Nat.sub_self]
            rfl
        · rw [if_neg hib, if_neg (by omega : ¬ i + 1 ≤ b)]
  | some n :: rest, hwfk, i, hi, pre, hpre, T, hTwf, k => by
    rw [Trie.saveKids.eq_def]
    have hn : n.wf = true := by
      rw [Trie.wfKids] at hwfk
      exact ((Bool.and_eq_true ..).mp hwfk).1
    have hrest : Trie.wfKids rest = true := by
      rw [Trie.wfKids] at hwfk
      exact ((Bool.and_eq_true ..).mp hwfk).2
    have hpre1 : ∀ b ∈ pre ++ [i], b < 256 := by
      intro b hb
      rcases List.mem_append.mp hb with h | h
      · exact hpre b h
      · simp at h
        simp at hi
        omega
    rw [List.map_append, applyRecs_append]
    rw [Trie.saveKids_replay rest hrest (i + 1) (by simp at hi; omega) pre hpre
      _ (applyRecs_wf _ hTwf) k]
    have hT1 : ∀ k2, (applyRecs T ((Trie.do_save n (pre ++ [i])).map toRec)).get k2 =
        (match stripPre (pre ++ [i]) k2 with
         | some suf => orGet (n.get suf) T k2
         | none => T.get k2) :=
      Trie.do_save_replay n hn (pre ++ [i]) hpre1 T hTwf
    cases hsp : stripPre pre k with
    | none =>
      simp only []
      rw [hT1 k, stripPre_snoc, hsp]
    | some s =>
      cases s with
      | nil =>
        simp only []
        rw [hT1 k, stripPre_snoc, hsp]
      | cons b suf =>
        simp only []
        by_cases hib : i ≤ b
        · rw [if_pos hib]
          by_cases hib1 : i + 1 ≤ b
          · rw [if_pos hib1]
            have hbi : b - i = (b - (i + 1)) + 1 := by omega
            rw [hbi, kidGet_cons_some]
            cases hkg : kidGet rest (b - (i + 1)) suf with
            | some v => rfl
            | none =>
              show (applyRecs T ((Trie.do_save n (pre ++ [i])).map toRec)).get k
                = orGet none T k
              rw [show orGet none T k = T.get k from rfl]
              rw [hT1 k, stripPre_snoc, hsp]
              simp only []
              rw [if_neg (by omega : ¬ i = b)]
          · rw [if_neg hib1]
            have hbi : b = i := by omega
            subst hbi
            rw [Nat.sub_self]
            rw [hT1 k, stripPre_snoc, hsp]
            simp only []
            rw [if_pos trivial]
            rfl
        · rw [if_neg hib, if_neg (by omega : ¬ i + 1 ≤ b)]
          rw [hT1 k, stripPre_snoc, hsp]
          simp only []
          rw [if_neg (by omega : ¬ i = b)]

end

theorem loadConsume_nil (t : Trie) : loadConsume t [] = t := by
  rw [loadConsume.eq_def]
  rw [dif_neg (by simp)]

theorem saveBounded_wfrec {S : Trie} (hb : S.saveBounded = true) :
    ∀ r ∈ (S.do_save []).map toRec, WFRec r := by
  intro r hr
  obtain ⟨q, hq, hqr⟩ := List.mem_map.mp hr
  rw [Trie.saveBounded, List.all_eq_true] at hb
  have h2 := hb q hq
  rw [Bool.and_eq_true, decide_eq_true_iff, decide_eq_true_iff] at h2
  refine ⟨?_, ?_⟩
  · rw [← hqr]
    exact h2.1
  · intro w hw
    rw [← hqr] at hw
    have h3 : some q.2 = some w := hw
    have h4 : q.2 = w := by injection h3
    rw [← h4]
    exact h2.2

/-- Loading a snapshot stream is replaying its records in order. -/
theorem load_saveBytes_eq (S : Trie) (hb : S.saveBounded = true) (T : Trie) :
    EventHandler.load T S.saveBytes = applyRecs T ((S.do_save []).map toRec) := by
  rw [load_eq_consume]
  have h1 : S.saveBytes = encodeRecs ((S.do_save []).map toRec) ++ [] := by
    rw [List.append_nil]
    rfl
  rw [h1, loadConsume_records T _ [] (saveBounded_wfrec hb), loadConsume_nil]

/-- Replaying a snapshot stream into a well-formed trie `T` overrides exactly
the keys the snapshotted trie holds, leaving the rest of `T` untouched. -/
theorem load_saveBytes_get (S : Trie) (hwf : S.wf = true)
    (hb : S.saveBounded = true) (T : Trie) (hTwf : T.wf = true) (k : List Nat) :
    (EventHandler.load T S.saveBytes).get k = orGet (S.get k) T k := by
  rw [load_eq_consume]
  have h1 : S.saveBytes = encodeRecs ((S.do_save []).map toRec) ++ [] := by
    rw [List.append_nil]
    rfl
  rw [h1, loadConsume_records T _ [] (saveBounded_wfrec hb), loadConsume_nil]
  have h2 := Trie.do_save_replay S hwf [] (by simp) T hTwf k
  rw [h2, stripPre]

/-! ## Wire-protocol framer and response writer (src/server/src/main.rs) -/

/-- A big-endian u16 as two bytes, as `write_u16` sends it. -/
def u16be (x : Nat) : List Nat := [(x >>> 8) % 256, x % 256]

/-- The events the framer emits (main.rs lines 182-185, 210-214).  The SET
value is the raw byte vector: this framer has no tombstone branch, so it can
never produce an absent value (event.rs declares `Event::SET` with
`value: Option<Vec<u8>>`, which this struct literal does not satisfy). -/
inductive ParsedEvent where
  | GET (key : List Nat)
  | SET (key : List Nat) (value : List Nat)

/-- Outcome of the single parse attempt made at the top of each connection
loop iteration, before the task suspends in `select!` (main.rs 167-247). -/
inductive ParseOutcome where
  | waiting (b : List Nat)
  | extracted (e : ParsedEvent) (b : List Nat)
  | fatal

/-- One parse attempt on the connection buffer (main.rs lines 168-227):
inspect `b.first()`; for OP_GET require `b.len() > 3`, decode the masked key
length, and require the full frame before splitting it off; for OP_SET
likewise with the masked value length; any other leading byte shuts the
connection down.  An empty or incomplete buffer is left unconsumed. -/
def parseStep (b : List Nat) : ParseOutcome :=
  match b.head? with
  | none => ParseOutcome.waiting b
  | some op =>
    if op = OP_GET then
      if b.length > 3 then
        let key_len := (b.getD 1 0 * 0x100 + b.getD 2 0) &&& LEN_MASK
        if b.length ≥ 1 + 2 + key_len then
          ParseOutcome.extracted (ParsedEvent.GET ((b.drop 3).take key_len))
            (b.drop (1 + 2 + key_len))
        else ParseOutcome.waiting b
      else ParseOutcome.waiting b
    else if op = OP_SET then
      if b.length > 3 then
        let key_len := (b.getD 1 0 * 0x100 + b.getD 2 0) &&& LEN_MASK
        if b.length ≥ 1 + 2 + key_len + 2 then
          let value_len := (b.getD (1 + 2 + key_len) 0 * 0x100 +
            b.getD (1 + 2 + key_len + 1) 0) &&& LEN_MASK
          if b.length ≥ 1 + 2 + key_len + 2 + value_len then
            ParseOutcome.extracted
              (ParsedEvent.SET ((b.drop 3).take key_len)
                ((b.drop (1 + 2 + key_len + 2)).take value_len))
              (b.drop (1 + 2 + key_len + 2 + value_len))
          else ParseOutcome.waiting b
        else ParseOutcome.waiting b
      else ParseOutcome.waiting b
    else ParseOutcome.fatal

/-- A GET request frame as the client sends it (client/src/main.rs lines
158-160; spec section 6): opcode, masked big-endian key length, key bytes. -/
def getFrame (key : List Nat) : List Nat :=
  OP_GET :: (u16be ((key.length % 65536) &&& LEN_MASK) ++ key)

/-- A SET request frame (client/src/main.rs lines 162-166; spec section 6). -/
def setFrame (key value : List Nat) : List Nat :=
  OP_SET :: (u16be ((key.length % 65536) &&& LEN_MASK) ++ key ++
    (u16be ((value.length % 65536) &&& LEN_MASK) ++ value))

/-- The GET response writer (main.rs lines 252-269): `RES_GET`, then
`value.len() as u16 & LEN_MASK` as a big-endian u16 (`write_u16`), then the
value bytes.  event.rs types the `EventRes::GET` value as `Option<Vec<u8>>`;
this writer calls `.len()` on it with no branch for an absent value, so it is
modelled on the byte vector it measures — it has no absent-sentinel path. -/
def writeGetRes (value : List Nat) : List Nat :=
  RES_GET :: (u16be ((value.length % 65536) &&& LEN_MASK) ++ value)

/-! ## Event dispatcher SET path (src/server/src/event.rs lines 201-233) -/

/-- The dispatcher response messages (event.rs lines 41-50). -/
inductive EventRes where
  | GET (id : String) (value : Option (List Nat))
  | SET (id : String)

/-- The dispatcher state the SET arm touches: the trie, the active slot's WAL
byte content, the registered client ids (the DashMap's keys) and the
responses pushed to client queues so far, in order. -/
structure DispatchState where
  trie : Trie
  wal : List Nat
  clients : List String
  responses : List EventRes

/-- The `Event::SET` arm of the event loop (event.rs lines 201-233): build
the length-prefixed record (`buf`) and append it to the active WAL
unconditionally; then look `id` up in the client map — only when the id is
present are the trie mutated (`self.trie.set(key, value)`) and the
`EventRes::SET` acknowledgment pushed; when it is absent the arm only logs
and leaves the trie untouched. -/
def handleSet (st : DispatchState) (id : String) (key : List Nat)
    (value : Option (List Nat)) : DispatchState :=
  let st2 : DispatchState := { st with wal := st.wal ++ walRecord key value }
  if st2.clients.contains id then
    { st2 with trie := st2.trie.set key value,
               responses := st2.responses ++ [EventRes.SET id] }
  else st2

/-! ## Startup: index byte and replay order (event.rs lines 139-175) -/

/-- Result of `read_u8` on the index file at startup. -/
inductive ReadResult where
  | ok (n : Nat)
  | err

/-- The startup replay (event.rs lines 158-175): with active slot
`file_index`, replay the other slot's snapshot (`log` file), the other
slot's WAL, this slot's snapshot, then this slot's WAL, into the trie. -/
def startupReplay (trie : Trie) (log_files wal_files : Nat → List Nat)
    (file_index : Nat) : Trie :=
  let file_index_last := FILE_BATCH - 1 - file_index
  let t1 := EventHandler.load trie (log_files file_index_last)
  let t2 := EventHandler.load t1 (wal_files file_index_last)
  let t3 := EventHandler.load t2 (log_files file_index)
  EventHandler.load t3 (wal_files file_index)

/-- The replay order exactly as the spec words it (spec section 4.2 step 2):
the inactive slot is `1 - i`; replay inactive snapshot, inactive WAL, active
snapshot, active WAL. -/
def specReplayOrder (trie : Trie) (log_files wal_files : Nat → List Nat)
    (i : Nat) : Trie :=
  EventHandler.load (EventHandler.load (EventHandler.load (EventHandler.load
    trie (log_files (1 - i))) (wal_files (1 - i))) (log_files i)) (wal_files i)

/-- What startup does with the index byte and the replay (event.rs lines
139-175): a byte 0 or 1 is used unchanged and nothing is written back; any
other byte, and a read error, select slot 0 and first rewrite the index file
(`refresh_index_file`: seek to 0, write the byte, `sync_all`) before any
replay.  `indexWritten` is the byte synchronously persisted back (`none` =
file untouched); the replay then runs with the chosen index. -/
structure StartupResult where
  file_index : Nat
  indexWritten : Option Nat
  trie : Trie

def startupLoad (r : ReadResult) (trie : Trie)
    (log_files wal_files : Nat → List Nat) : StartupResult :=
  let p : Nat × Option Nat :=
    match r with
    | ReadResult.ok n => if n = 1 ∨ n = 0 then (n, none) else (0, some 0)
    | ReadResult.err => (0, some 0)
  { file_index := p.1
    indexWritten := p.2
    trie := startupReplay trie log_files wal_files p.1 }

theorem dec16_mask {n : Nat} (h : n ≤ LEN_MASK) :
    (((n >>> 8) % 256) * 0x100 + n % 256) &&& LEN_MASK = n := by
  have hlt : n < 65536 := by
    have h2 : LEN_MASK < 65536 := by decide
    omega
  have h2 := enc16_mask h
  rw [Nat.mod_eq_of_lt hlt, and_LEN_MASK h] at h2
  exact h2

theorem mask_self {n : Nat} (h : n ≤ LEN_MASK) :
    (n % 65536) &&& LEN_MASK = n := by
  have hlt : n < 65536 := by
    have h2 : LEN_MASK < 65536 := by decide
    omega
  rw [Nat.mod_eq_of_lt hlt, and_LEN_MASK h]

theorem drop_cons3 (a b c : Nat) (l : List Nat) (j : Nat) :
    (a :: b :: c :: l).drop (3 + j) = l.drop j := by
  rw [Nat.add_comm 3 j]
  rfl

/-- A complete GET frame at the front of a buffer longer than 3 bytes is
extracted whole, leaving exactly the bytes that follow it. -/
theorem parseStep_getFrame (key rest : List Nat) (hk : key.length ≤ LEN_MASK)
    (hlong : (getFrame key ++ rest).length > 3) :
    parseStep (getFrame key ++ rest) =
      ParseOutcome.extracted (ParsedEvent.GET key) rest := by
  have hshape : getFrame key ++ rest =
      OP_GET :: ((key.length >>> 8) % 256) :: (key.length % 256) :: (key ++ rest) := by
    rw [getFrame, mask_self hk, u16be]
    simp
  have hlen : (getFrame key ++ rest).length = 3 + key.length + rest.length := by
    rw [hshape]
    simp [List.length_append]
    omega
  rw [hshape] at hlen ⊢
  rw [parseStep.eq_def]
  simp only [List.head?]
  rw [if_pos trivial]
  rw [if_pos (by rw [hshape] at hlong; rw [hlen] at hlong; rw [hlen]; omega)]
  have hg2 : (OP_GET :: ((key.length >>> 8) % 256) :: (key.length % 256) ::
      (key ++ rest)).getD 2 0 = key.length % 256 := rfl
  have hg1 : (OP_GET :: ((key.length >>> 8) % 256) :: (key.length % 256) ::
      (key ++ rest)).getD 1 0 = (key.length >>> 8) % 256 := rfl
  rw [hg1, hg2, dec16_mask hk]
  rw [if_pos (by rw [hlen]; omega)]
  have hdrop3 : (OP_GET :: ((key.length >>> 8) % 256) :: (key.length % 256) ::
      (key ++ rest)).drop 3 = key ++ rest := rfl
  have h12 : 1 + 2 + key.length = 3 + key.length := by omega
  rw [hdrop3, List.take_left, h12, drop_cons3, List.drop_left]

/-- A complete SET frame at the front of a buffer is always extracted whole
(a SET frame is at least 5 bytes, so the `> 3` guard always passes). -/
theorem parseStep_setFrame (key value rest : List Nat)
    (hk : key.length ≤ LEN_MASK) (hv : value.length ≤ LEN_MASK) :
    parseStep (setFrame key value ++ rest) =
      ParseOutcome.extracted (ParsedEvent.SET key value) rest := by
  have hshape : setFrame key value ++ rest =
      OP_SET :: ((key.length >>> 8) % 256) :: (key.length % 256) ::
      (key ++ (((value.length >>> 8) % 256) :: (value.length % 256) ::
        (value ++ rest))) := by
    rw [setFrame, mask_self hk, mask_self hv, u16be, u16be]
    simp
  have hlen : (setFrame key value ++ rest).length
      = 5 + key.length + value.length + rest.length := by
    rw [hshape]
    simp [List.length_append]
    omega
  rw [hshape] at hlen ⊢
  rw [parseStep.eq_def]
  simp only [List.head?]
  rw [if_neg (by decide : ¬ OP_SET = OP_GET), if_pos trivial]
  rw [if_pos (by rw [hlen]; omega)]
  have hg1 : (OP_SET :: ((key.length >>> 8) % 256) :: (key.length % 256) ::
      (key ++ (((value.length >>> 8) % 256) :: (value.length % 256) ::
        (value ++ rest)))).getD 1 0 = (key.length >>> 8) % 256 := rfl
  have hg2 : (OP_SET :: ((key.length >>> 8) % 256) :: (key.length % 256) ::
      (key ++ (((value.length >>> 8) % 256) :: (value.length % 256) ::
        (value ++ rest)))).getD 2 0 = key.length % 256 := rfl
  rw [hg1, hg2, dec16_mask hk]
  rw [if_pos (by rw [hlen]; omega)]
  have h12 : 1 + 2 + key.length = 3 + key.length := by omega
  have h12b : 1 + 2 + key.length + 1 = 3 + (key.length + 1) := by omega
  rw [h12, h12b]
  have hdA : ∀ j, (OP_SET :: ((key.length >>> 8) % 256) :: (key.length % 256) ::
      (key ++ (((value.length >>> 8) % 256) :: (value.length % 256) ::
        (value ++ rest)))).getD (3 + j) 0
      = (key ++ (((value.length >>> 8) % 256) :: (value.length % 256) ::
        (value ++ rest))).getD j 0 := by
    intro j
    rw [Nat.add_comm 3 j]
    rfl
  rw [hdA, hdA]
  rw [getD_append_right_len (Nat.le_refl _), Nat.sub_self]
  rw [getD_append_right_len (Nat.le_add_right ..), Nat.add_sub_cancel_left]
  have hgv0 : (((value.length >>> 8) % 256) :: (value.length % 256) ::
      (value ++ rest)).getD 0 0 = (value.length >>> 8) % 256 := rfl
  have hgv1 : (((value.length >>> 8) % 256) :: (value.length % 256) ::
      (value ++ rest)).getD 1 0 = value.length % 256 := rfl
  rw [hgv0, hgv1, dec16_mask hv]
  rw [if_pos (by rw [hlen]; omega)]
  have hdrop3 : (OP_SET :: ((key.length >>> 8) % 256) :: (key.length % 256) ::
      (key ++ (((value.length >>> 8) % 256) :: (value.length % 256) ::
        (value ++ rest)))).drop 3
      = key ++ (((value.length >>> 8) % 256) :: (value.length % 256) ::
        (value ++ rest)) := rfl
  rw [hdrop3, List.take_left]
  have h4 : 3 + key.length + 2 + value.length
      = 3 + (key.length + (2 + value.length)) := by omega
  have h3 : 3 + key.length + 2 = 3 + (key.length + 2) := by omega
  rw [h4, h3, drop_cons3, drop_cons3]
  rw [List.drop_append 2, List.drop_append (2 + value.length)]
  have hd2 : (((value.length >>> 8) % 256) :: (value.length % 256) ::
      (value ++ rest)).drop 2 = value ++ rest := rfl
  rw [hd2, List.take_left]
  have h6 : 2 + value.length = value.length + 2 := by omega
  have hd3 : (((value.length >>> 8) % 256) :: (value.length % 256) ::
      (value ++ rest)).drop (2 + value.length) = (value ++ rest).drop value.length := by
    rw [drop_cons_cons_add_two]
  rw [hd3, List.drop_left]

theorem parseStep_waiting_unchanged : ∀ (b b2 : List Nat),
    parseStep b = ParseOutcome.waiting b2 → b2 = b := by
  intro b b2 h
  rw [parseStep.eq_def] at h
  cases hb : b.head? with
  | none =>
    rw [hb] at h
    simp only [] at h
    injection h with h2
    exact h2.symm
  | some op =>
    rw [hb] at h
    simp only [] at h
    by_cases hop1 : op = OP_GET
    · rw [if_pos hop1] at h
      by_cases h3 : b.length > 3
      · rw [if_pos h3] at h
        by_cases h4 : b.length ≥ 1 + 2 + ((b.getD 1 0 * 0x100 + b.getD 2 0) &&& LEN_MASK)
        · rw [if_pos h4] at h
          cases h
        · rw [if_neg h4] at h
          injection h with h2
          exact h2.symm
      · rw [if_neg h3] at h
        injection h with h2
        exact h2.symm
    · rw [if_neg hop1] at h
      by_cases hop2 : op = OP_SET
      · rw [if_pos hop2] at h
        by_cases h3 : b.length > 3
        · rw [if_pos h3] at h
          by_cases h4 : b.length ≥ 1 + 2 + ((b.getD 1 0 * 0x100 + b.getD 2 0) &&& LEN_MASK) + 2
          · rw [if_pos h4] at h
            by_cases h5 : b.length ≥ 1 + 2 + ((b.getD 1 0 * 0x100 + b.getD 2 0) &&& LEN_MASK) + 2 +
                ((b.getD (1 + 2 + ((b.getD 1 0 * 0x100 + b.getD 2 0) &&& LEN_MASK)) 0 * 0x100 +
                  b.getD (1 + 2 + ((b.getD 1 0 * 0x100 + b.getD 2 0) &&& LEN_MASK) + 1) 0) &&& LEN_MASK)
            · rw [if_pos h5] at h
              cases h
            · rw [if_neg h5] at h
              injection h with h2
              exact h2.symm
          · rw [if_neg h4] at h
            injection h with h2
            exact h2.symm
        · rw [if_neg h3] at h
          injection h with h2
          exact h2.symm
      · rw [if_neg hop2] at h
        cases h

def idA : String := ("alice")

def idB : String := ("bob")

/-! ## The claims -/

/-- Claim C1 (code_bug evidence): the SET arm appends the record to the WAL
unconditionally, but when the id is absent from the Client Registry it skips
the trie mutation (and the acknowledgment) entirely — against the claim (and
spec sections 4.2/4.5/7), the Trie Store is NOT mutated for every processed
SET.  At the concrete failing input — a SET for id `bob` while only `alice`
is registered — the WAL gains the record, yet a subsequent get of the key
still returns `none` and no response is produced; with the id present, WAL
append, trie mutation and acknowledgment all happen. -/
theorem claim_C1 :
    (handleSet ⟨Trie.new, [], [idA], []⟩ idB [1] (some [2])).wal
        = walRecord [1] (some [2]) ∧
    (handleSet ⟨Trie.new, [], [idA], []⟩ idB [1] (some [2])).trie.get [1] = none ∧
    (handleSet ⟨Trie.new, [], [idA], []⟩ idB [1] (some [2])).responses = [] ∧
    (handleSet ⟨Trie.new, [], [idA], []⟩ idA [1] (some [2])).wal
        = walRecord [1] (some [2]) ∧
    (handleSet ⟨Trie.new, [], [idA], []⟩ idA [1] (some [2])).trie.get [1]
        = some [2] ∧
    (handleSet ⟨Trie.new, [], [idA], []⟩ idA [1] (some [2])).responses
        = [EventRes.SET idA] := by
  refine ⟨rfl, ?_, rfl, rfl, ?_, rfl⟩
  · show Trie.new.get [1] = none
    exact Trie.get_new [1]
  · have h1 : (handleSet ⟨Trie.new, [], [idA], []⟩ idA [1] (some [2])).trie
        = Trie.new.set [1] (some [2]) := rfl
    rw [h1]
    exact Trie.get_set_self Trie.wf_new (by decide) (some [2])

/-- Claim C2: serialising a trie with the snapshot traversal and replaying
the produced record stream into a fresh trie reproduces `get` on every key;
tombstoned keys produce no snapshot record (and hence read back as `none`);
replaying the same stream a second time leaves the result unchanged.
`Trie.wf` is the 256-slot array shape (automatic in Rust);
`Trie.saveBounded` is the claim's hypothesis that every stored key and value
is at most 32767 bytes. -/
theorem claim_C2 (S : Trie) (hwf : S.wf = true) (hb : S.saveBounded = true) :
    (∀ k, (EventHandler.load Trie.new S.saveBytes).get k = S.get k) ∧
    (∀ k, (EventHandler.load (EventHandler.load Trie.new S.saveBytes)
        S.saveBytes).get k = S.get k) ∧
    (∀ k v, S.get k = none → (k, v) ∉ S.do_save []) := by
  have h1 : ∀ k, (EventHandler.load Trie.new S.saveBytes).get k = S.get k := by
    intro k
    rw [load_saveBytes_get S hwf hb Trie.new Trie.wf_new k]
    cases hS : S.get k with
    | some v => rfl
    | none =>
      show Trie.new.get k = none
      exact Trie.get_new k
  refine ⟨h1, ?_, ?_⟩
  · intro k
    have hT1wf : (EventHandler.load Trie.new S.saveBytes).wf = true := by
      rw [load_saveBytes_eq S hb Trie.new]
      exact applyRecs_wf _ Trie.wf_new
    rw [load_saveBytes_get S hwf hb _ hT1wf k]
    cases hS : S.get k with
    | some v => rfl
    | none =>
      show (EventHandler.load Trie.new S.saveBytes).get k = none
      rw [h1 k, hS]
  · intro k v hnone hmem
    obtain ⟨suf, hk, hget⟩ := Trie.do_save_mem S [] k v hmem
    rw [List.nil_append] at hk
    rw [← hk] at hget
    rw [hget] at hnone
    cases hnone

/-- Claim C3: after the active slot index `i` is determined, startup replays
exactly four record streams in the order inactive snapshot, inactive WAL,
active snapshot, active WAL (the source's `FILE_BATCH - 1 - file_index`
equals the spec's `1 - i`), and a record replayed later for a key overwrites
whatever an earlier stream set for that key. -/
theorem claim_C3 :
    (∀ (trie : Trie) (logs wals : Nat → List Nat) (i : Nat),
      startupReplay trie logs wals i = specReplayOrder trie logs wals i) ∧
    (∀ (t : Trie), t.wf = true →
      ∀ (rs : List (List Nat × Option (List Nat))), (∀ r ∈ rs, WFRec r) →
      ∀ (k : List Nat) (x : Option (List Nat)), (∀ b ∈ k, b < 256) →
      k.length ≤ LEN_MASK → (∀ w, x = some w → w.length ≤ LEN_MASK) →
      (EventHandler.load t (encodeRecs (rs ++ [(k, x)]))).get k = x) := by
  constructor
  · intro trie logs wals i
    rfl
  · intro t ht rs hrs k x hk hkl hx
    rw [load_eq_consume]
    have h1 : encodeRecs (rs ++ [(k, x)]) = encodeRecs (rs ++ [(k, x)]) ++ [] := by
      simp
    rw [h1, loadConsume_records t _ [] ?hwf, loadConsume_nil]
    case hwf =>
      intro r hr
      rcases List.mem_append.mp hr with h | h
      · exact hrs r h
      · simp at h
        rw [h]
        exact ⟨hkl, hx⟩
    rw [applyRecs_append]
    show ((applyRecs t rs).set k x).get k = x
    exact Trie.get_set_self (applyRecs_wf rs ht) hk x

/-- Claim C4: for every byte-sequence key (the empty key included) and every
optional value, `set k x` then `get k` with no intervening write returns
exactly `x`; in particular a value write then a tombstone write reads back
`none`.  `Trie.wf` is the 256-slot array shape, automatic in Rust. -/
theorem claim_C4 (t : Trie) (hwf : t.wf = true) (k : List Nat)
    (hk : ∀ b ∈ k, b < 256) :
    (∀ x, (t.set k x).get k = x) ∧
    (∀ v, ((t.set k (some v)).set k none).get k = none) := by
  constructor
  · intro x
    exact Trie.get_set_self hwf hk x
  · intro v
    exact Trie.get_set_self (Trie.wf_set hwf k (some v)) hk none

/-- Claim C5 (code_bug evidence): the framer has no tombstone branch — it
masks the declared value length with LEN_MASK immediately, so the sentinel
0xFFFF becomes the length 32767 and the parser waits for 32767 value bytes
instead of emitting a SET event with an absent value.  At the concrete frame
`[OP_SET, 0x00, 0x01, 0x61, 0xFF, 0xFF]` (SET of key "a" with the tombstone
sentinel) nothing is extracted: the buffer is left unconsumed.  The second
conjunct shows the mask turns the sentinel into 0x7FFF, and the third that
the masked length can never equal the sentinel, so no frame is ever parsed
as a tombstone. -/
theorem claim_C5 :
    parseStep [OP_SET, 0x00, 0x01, 0x61, 0xff, 0xff]
      = ParseOutcome.waiting [OP_SET, 0x00, 0x01, 0x61, 0xff, 0xff] ∧
    (0xff * 0x100 + 0xff) &&& LEN_MASK = 0x7fff ∧
    (∀ x : Nat, (x &&& LEN_MASK) ≠ NONE_VALUE_LEN) := by
  refine ⟨rfl, by decide, ?_⟩
  intro x h
  have h1 : x &&& LEN_MASK ≤ LEN_MASK := Nat.and_le_right
  rw [h] at h1
  exact absurd h1 (by decide)

/-- Claim C6 (code_bug evidence): the GET response writer sends `RES_GET`
followed by `value.len() as u16 & LEN_MASK` — the high length byte is at most
0x7F, so the absent sentinel 0xFF 0xFF can never be emitted, and the writer
has no branch for an absent value at all (it reads `.len()` of the
`Option`-typed result).  A stored empty value is sent as `0x81 0x00 0x00`
with no value bytes (that part of the claim holds). -/
theorem claim_C6 :
    (∀ value : List Nat, (writeGetRes value).getD 1 0 ≠ 0xff) ∧
    writeGetRes [] = [RES_GET, 0x00, 0x00] := by
  constructor
  · intro value h
    have h1 : (writeGetRes value).getD 1 0
        = ((((value.length % 65536) &&& LEN_MASK) >>> 8) % 256) := rfl
    rw [h1] at h
    have h2 : (value.length % 65536) &&& LEN_MASK ≤ LEN_MASK := Nat.and_le_right
    have h3 : ((value.length % 65536) &&& LEN_MASK) >>> 8
        = ((value.length % 65536) &&& LEN_MASK) / 2 ^ 8 :=
      Nat.shiftRight_eq_div_pow _ 8
    have h4 : LEN_MASK = 32767 := rfl
    rw [h3] at h
    have h5 : ((value.length % 65536) &&& LEN_MASK) / 2 ^ 8 ≤ 127 := by omega
    omega
  · rfl

/-- Claim C7 counterexample: the connection loop makes exactly one parse
attempt per iteration and then suspends in `select!` (main.rs lines 167-247:
the `loop` body is one parse attempt followed by `select!`).  On a buffer
holding two complete GET frames, that single pre-suspension attempt extracts
only the first frame: the buffer handed to the suspension point still holds a
complete, extractable frame — so the framer does NOT extract every complete
frame before waiting; draining the second frame needs another wakeup. -/
theorem claim_C7_cex :
    parseStep (getFrame [1] ++ getFrame [2])
      = ParseOutcome.extracted (ParsedEvent.GET [1]) (getFrame [2]) ∧
    parseStep (getFrame [2]) = ParseOutcome.extracted (ParsedEvent.GET [2]) [] ∧
    (getFrame [2]).length = 4 := by
  refine ⟨rfl, rfl, by decide⟩

/-- Claim C7 as amended: per loop iteration the framer extracts at most the
first complete frame at the buffer's front (one GET frame when the buffer is
longer than 3 bytes, one SET frame always), and an iteration that extracts
nothing leaves the buffer exactly unconsumed; a second buffered frame is
extracted only on a later wakeup. -/
theorem claim_C7_amended :
    (∀ key rest, key.length ≤ LEN_MASK → (getFrame key ++ rest).length > 3 →
      parseStep (getFrame key ++ rest)
        = ParseOutcome.extracted (ParsedEvent.GET key) rest) ∧
    (∀ key value rest, key.length ≤ LEN_MASK → value.length ≤ LEN_MASK →
      parseStep (setFrame key value ++ rest)
        = ParseOutcome.extracted (ParsedEvent.SET key value) rest) ∧
    (∀ b b2, parseStep b = ParseOutcome.waiting b2 → b2 = b) :=
  ⟨parseStep_getFrame, parseStep_setFrame, parseStep_waiting_unchanged⟩

/-- Claim C8: a truncated trailing record — too few bytes left for the
declared key length or for a declared non-tombstone value length — is
silently discarded by the recovery parser, and every complete record before
it is still applied to the trie. -/
theorem claim_C8 (trie : Trie) (rs : List (List Nat × Option (List Nat)))
    (frag : List Nat) (hwf : ∀ r ∈ rs, WFRec r) (ht : IsTruncated frag) :
    EventHandler.load trie (encodeRecs rs ++ frag)
      = EventHandler.load trie (encodeRecs rs) := by
  rw [load_eq_consume, load_eq_consume]
  rw [loadConsume_records trie rs frag hwf]
  have h1 : encodeRecs rs = encodeRecs rs ++ [] := by simp
  rw [h1, loadConsume_records trie rs [] hwf, loadConsume_nil]
  exact loadConsume_truncated _ frag ht

/-- Claim C9: at startup a readable index byte 0 or 1 is used unchanged and
the index file is not rewritten; an out-of-range byte, and a read error,
default the active slot to 0 and synchronously persist that default
(`refresh_index_file`) before the replay, which then runs with the chosen
slot. -/
theorem claim_C9 : ∀ (trie : Trie) (logs wals : Nat → List Nat),
    startupLoad (ReadResult.ok 0) trie logs wals
      = ⟨0, none, startupReplay trie logs wals 0⟩ ∧
    startupLoad (ReadResult.ok 1) trie logs wals
      = ⟨1, none, startupReplay trie logs wals 1⟩ ∧
    startupLoad ReadResult.err trie logs wals
      = ⟨0, some 0, startupReplay trie logs wals 0⟩ ∧
    (∀ n, 2 ≤ n → startupLoad (ReadResult.ok n) trie logs wals
      = ⟨0, some 0, startupReplay trie logs wals 0⟩) := by
  intro trie logs wals
  refine ⟨rfl, rfl, rfl, ?_⟩
  intro n hn
  rw [startupLoad]
  rw [if_neg (by omega : ¬ (n = 1 ∨ n = 0))]

/-- Claim C10: the recovery parser is total and memory-safe on arbitrary
input: a variant in which every buffer access is bounds-checked (and fails
if out of range) never fails and agrees with the parser — every slice index
is guarded by the preceding length checks, and the parser, being a Lean
function defined by well-founded recursion on the unconsumed byte count
(each iteration consumes at least 4 bytes), terminates on every buffer. -/
theorem claim_C10 : ∀ (trie : Trie) (buf : List Nat),
    EventHandler.loadCheckedGo trie buf 0 = some (EventHandler.load trie buf) := by
  intro trie buf
  exact EventHandler.loadChecked_eq trie buf

/-! ## Witnesses -/

/-- Witness for claim C2 at the concrete trie that stores [2,3] at key [1]
and tombstones key [2]. -/
theorem claim_C2_witness :
    (EventHandler.load Trie.new
        ((Trie.new.set [1] (some [2, 3])).set [2] none).saveBytes).get [1]
      = ((Trie.new.set [1] (some [2, 3])).set [2] none).get [1] ∧
    ([2], [9]) ∉ ((Trie.new.set [1] (some [2, 3])).set [2] none).do_save [] :=
  ⟨(claim_C2 _ (Trie.wf_set (Trie.wf_set Trie.wf_new [1] (some [2, 3])) [2] none)
      (by decide)).1 [1],
   (claim_C2 _ (Trie.wf_set (Trie.wf_set Trie.wf_new [1] (some [2, 3])) [2] none)
      (by decide)).2.2 [2] [9] (by decide)⟩

/-- Witness for claim C3: the two replay orders agree at slot 0, and the last
record replayed for key [5] wins. -/
theorem claim_C3_witness :
    startupReplay Trie.new (fun _ => []) (fun _ => []) 0
      = specReplayOrder Trie.new (fun _ => []) (fun _ => []) 0 ∧
    (EventHandler.load Trie.new (encodeRecs ([] ++ [([5], some [6])]))).get [5]
      = some [6] :=
  ⟨claim_C3.1 Trie.new (fun _ => []) (fun _ => []) 0,
   claim_C3.2 Trie.new Trie.wf_new [] (fun r hr => absurd hr (List.not_mem_nil r))
     [5] (some [6]) (by decide) (by decide)
     (fun w hw => by injection hw with h2; rw [← h2]; decide)⟩

/-- Witness for claim C4 at key [0] and value [7]. -/
theorem claim_C4_witness :
    (Trie.new.set [0] (some [7])).get [0] = some [7] ∧
    ((Trie.new.set [0] (some [7])).set [0] none).get [0] = none :=
  ⟨(claim_C4 Trie.new Trie.wf_new [0] (by decide)).1 (some [7]),
   (claim_C4 Trie.new Trie.wf_new [0] (by decide)).2 [7]⟩

/-- Witness for the masked-length conjunct of claim C5. -/
theorem claim_C5_witness : ((5 : Nat) &&& LEN_MASK) ≠ NONE_VALUE_LEN :=
  claim_C5.2.2 5

/-- Witness for the no-sentinel conjunct of claim C6. -/
theorem claim_C6_witness : (writeGetRes [3, 4]).getD 1 0 ≠ 0xff :=
  claim_C6.1 [3, 4]

/-- Witness for the amended claim C7 at two concrete frames. -/
theorem claim_C7_amended_witness :
    parseStep (getFrame [7] ++ getFrame [9])
      = ParseOutcome.extracted (ParsedEvent.GET [7]) (getFrame [9]) ∧
    parseStep (setFrame [7] [8] ++ [])
      = ParseOutcome.extracted (ParsedEvent.SET [7] [8]) [] :=
  ⟨claim_C7_amended.1 [7] (getFrame [9]) (by decide) (by decide),
   claim_C7_amended.2.1 [7] [8] [] (by decide) (by decide)⟩

/-- Witness for claim C8: one complete record followed by a truncated tail
whose declared key length exceeds the remaining bytes. -/
theorem claim_C8_witness :
    IsTruncated [0, 5, 9] ∧
    EventHandler.load Trie.new (encodeRecs [([1], some [2])] ++ [0, 5, 9])
      = EventHandler.load Trie.new (encodeRecs [([1], some [2])]) :=
  ⟨by decide,
   claim_C8 Trie.new [([1], some [2])] [0, 5, 9]
     (fun r hr => by
       simp at hr
       rw [hr]
       exact ⟨by decide, fun w hw => by injection hw with h2; rw [← h2]; decide⟩)
     (by decide)⟩

/-- Witness for claim C9 at the out-of-range index byte 7. -/
theorem claim_C9_witness :
    startupLoad (ReadResult.ok 7) Trie.new (fun _ => []) (fun _ => [])
      = ⟨0, some 0, startupReplay Trie.new (fun _ => []) (fun _ => []) 0⟩ :=
  (claim_C9 Trie.new (fun _ => []) (fun _ => [])).2.2.2 7 (by decide)

/-- Witness for claim C10 on a concrete malformed buffer. -/
theorem claim_C10_witness :
    EventHandler.loadCheckedGo Trie.new [0, 200, 7] 0
      = some (EventHandler.load Trie.new [0, 200, 7]) :=
  claim_C10 Trie.new [0, 200, 7]
